import Mathlib

/-!
Verification of the accumulating reader (`AccReader`) from `src/lib.rs`.

The adapter wraps a forward-only byte source, accumulates every byte it has
ever produced in an internal buffer `buf`, keeps a cursor `pos` into that
buffer, and offers raw reads (`Read::read`), buffered reads
(`BufRead::fill_buf` / `consume`) and seeking (`Seek::seek`) on top.

The wrapped source is modelled as a script of responses: a `chunk bs` event
behaves like a slice source delivering successive prefixes of `bs`, and an
`err k` event makes the next read call fail with error kind `k`.  Bytes are
`Nat`s (their values are only ever copied around, never computed with).
-/

namespace AccSpec

/-- The error kinds the adapter distinguishes: the interruption class
(`ErrorKind::Interrupted`), the invalid-input class used for out-of-range
seeks (`ErrorKind::InvalidInput`), and everything else. -/
inductive ErrKind where
  | interrupted
  | invalidInput
  | other
  deriving DecidableEq

/-- One scripted response of the wrapped source: a slice-like run of bytes
delivered as successive prefixes, or an error of kind `k`. -/
inductive SrcEvent where
  | chunk (bs : List Nat)
  | err (k : ErrKind)
  deriving DecidableEq

/-- The wrapped sequential source, modelled as the script of responses it
will give to successive read calls. -/
abbrev Src := List SrcEvent

/-- One read call against the source with a destination of capacity `n`:
a head `chunk` delivers up to `n` of its bytes (the rest stays queued), an
exhausted script reports end-of-stream (`ok []`), and a head `err` event is
consumed and reported. -/
def srcRead (src : Src) (n : Nat) : Except ErrKind (List Nat) × Src :=
  match src with
  | [] => (Except.ok [], [])
  | SrcEvent.chunk bs :: rest =>
      (Except.ok (bs.take n),
        if bs.drop n = [] then rest else SrcEvent.chunk (bs.drop n) :: rest)
  | SrcEvent.err k :: rest => (Except.error k, rest)

/-- The accumulating reader: wrapped source, accumulator `buf` of every byte
read so far, cursor `pos` into `buf` (invariant `pos ≤ buf.length`), and the
growth increment `inc` used by the buffered-read path. -/
structure AccReader where
  src : Src
  buf : List Nat
  pos : Nat
  inc : Nat
  deriving DecidableEq

/-- Default capacity for the internal buffer (`DEFAULT_BUF_CAPACITY`). -/
def DEFAULT_BUF_CAPACITY : Nat := 4096

/-- Default increment for the internal buffer (`DEFAULT_BUF_INCREMENT`). -/
def DEFAULT_BUF_INCREMENT : Nat := 1024

/-- `AccReader::with_initial_capacity_and_increment`: fresh adapter, empty
accumulator, cursor 0.  The capacity is a pre-allocation hint only and has
no observable effect, so the model takes and ignores it. -/
def withInitialCapacityAndIncrement (cap inc : Nat) (src : Src) : AccReader :=
  { src := src, buf := [], pos := 0, inc := inc }

/-- `AccReader::new`: fresh adapter with the default capacity and increment. -/
def AccReader.new (src : Src) : AccReader :=
  withInitialCapacityAndIncrement DEFAULT_BUF_CAPACITY DEFAULT_BUF_INCREMENT src

/-- `Read::read` for `AccReader` (lib.rs lines 223-241): serve
`min(buf.len - pos, n)` buffered bytes if that is positive; otherwise issue
one source read of up to `n` bytes, append the obtained bytes to the
accumulator, advance the cursor past them, and report them (errors from the
source propagate unchanged, leaving `buf` and `pos` as they were). -/
def rawRead (s : AccReader) (n : Nat) : Except ErrKind (List Nat) × AccReader :=
  let need := min (s.buf.length - s.pos) n
  if 0 < need then
    (Except.ok ((s.buf.drop s.pos).take need), { s with pos := s.pos + need })
  else
    match srcRead s.src n with
    | (Except.ok bs, src2) =>
        (Except.ok bs,
          { s with src := src2, buf := s.buf ++ bs, pos := s.pos + bs.length })
    | (Except.error e, src2) => (Except.error e, { s with src := src2 })

/-- `BufRead::fill_buf` for `AccReader` (lib.rs lines 245-266): if no
buffered bytes are pending, grow the buffer by `inc`, issue one source read
into the new tail (of size `buf.len + inc - pos`), keep only the bytes
actually obtained, and return the slice `buf[pos..]`; otherwise return the
pending slice without touching the source.  A source error propagates, with
the buffer trimmed back to its old length. -/
def fill (s : AccReader) : Except ErrKind (List Nat) × AccReader :=
  if s.buf.length - s.pos = 0 then
    match srcRead s.src (s.buf.length + s.inc - s.pos) with
    | (Except.ok bs, src2) =>
        (Except.ok ((s.buf ++ bs).drop s.pos), { s with src := src2, buf := s.buf ++ bs })
    | (Except.error e, src2) => (Except.error e, { s with src := src2 })
  else (Except.ok (s.buf.drop s.pos), s)

/-- `BufRead::consume` for `AccReader` (lib.rs lines 268-270): advance the
cursor by `amt`, clamped to the buffer length. -/
def consume (s : AccReader) (amt : Nat) : AccReader :=
  { s with pos := min (s.pos + amt) s.buf.length }

/-- `AccReader::read_up_to` (lib.rs lines 194-219): read from the source
into the buffer tail until `n` bytes were obtained, the source reported
end-of-stream, or a non-interruption error occurred; interruption errors
are swallowed and the loop retries.  Returns the error (if any), the bytes
obtained before it, and the remaining source.  Bytes read before an error
are committed (the Rust code sets the final length even on error). -/
def readUpTo (n : Nat) (src : Src) : Option ErrKind × List Nat × Src :=
  if n = 0 then (none, [], src)
  else
    match src with
    | [] => (none, [], [])
    | SrcEvent.chunk bs :: rest =>
        if bs = [] then (none, [], rest)
        else if n ≤ bs.length then
          (none, bs.take n,
            if bs.drop n = [] then rest else SrcEvent.chunk (bs.drop n) :: rest)
        else
          let r := readUpTo (n - bs.length) rest
          (r.1, bs ++ r.2.1, r.2.2)
    | SrcEvent.err k :: rest =>
        if k = ErrKind.interrupted then readUpTo n rest
        else (some k, [], rest)

/-- `std::io::Read::read_to_end` as used by the `SeekFrom::End` branch
(lib.rs line 281): drain the source until it reports end-of-stream or a
non-interruption error, appending everything obtained; interruption errors
are retried transparently, and bytes read before a failure are kept. -/
def readToEndSrc (src : Src) : Option ErrKind × List Nat × Src :=
  match src with
  | [] => (none, [], [])
  | SrcEvent.chunk bs :: rest =>
      if bs = [] then (none, [], rest)
      else
        let r := readToEndSrc rest
        (r.1, bs ++ r.2.1, r.2.2)
  | SrcEvent.err k :: rest =>
      if k = ErrKind.interrupted then readToEndSrc rest
      else (some k, [], rest)

/-- The three seek addressing modes of `std::io::SeekFrom`: absolute
(`Start`, a u64 position), relative to the cursor (`Current`, an i64
offset), and relative to the end (`End`, an i64 offset). -/
inductive SeekFrom where
  | start (n : Nat)
  | current (n : Int)
  | fromEnd (n : Int)
  deriving DecidableEq

/-- The magnitude the seek code computes for a negative i64 offset `n`:
`(-n) as u64`, i.e. two's-complement (wrapping) negation reinterpreted as
an unsigned 64-bit value. -/
def wrapNegU64 (n : Int) : Nat := ((-n) % (2 ^ 64)).toNat

/-- `Seek::seek` for `AccReader` (lib.rs lines 274-333), faithful to the
six source branches: `End` with positive offset always fails invalid-input;
`End` otherwise drains the source and positions from the total length;
`Start` within the buffer moves the cursor directly; `Start` beyond it
reads the shortfall and fails invalid-input if the source ran short;
`Current 0` is a no-op; negative `Current` moves backwards, failing
invalid-input when the magnitude exceeds the cursor; positive `Current`
behaves like the corresponding absolute seek. -/
def seek (s : AccReader) (v : SeekFrom) : Except ErrKind Nat × AccReader :=
  match v with
  | SeekFrom.fromEnd n =>
      if 0 < n then (Except.error ErrKind.invalidInput, s)
      else
        match readToEndSrc s.src with
        | (some e, got, src2) =>
            (Except.error e, { s with src := src2, buf := s.buf ++ got })
        | (none, got, src2) =>
            let buf2 := s.buf ++ got
            let d := wrapNegU64 n
            if buf2.length < d then
              (Except.error ErrKind.invalidInput, { s with src := src2, buf := buf2 })
            else
              (Except.ok (buf2.length - d),
                { s with src := src2, buf := buf2, pos := buf2.length - d })
  | SeekFrom.start n =>
      if n ≤ s.buf.length then (Except.ok n, { s with pos := n })
      else
        match readUpTo (n - s.buf.length) s.src with
        | (some e, got, src2) =>
            (Except.error e, { s with src := src2, buf := s.buf ++ got })
        | (none, got, src2) =>
            let buf2 := s.buf ++ got
            if buf2.length < n then
              (Except.error ErrKind.invalidInput, { s with src := src2, buf := buf2 })
            else (Except.ok n, { s with src := src2, buf := buf2, pos := n })
  | SeekFrom.current n =>
      if n = 0 then (Except.ok s.pos, s)
      else if n < 0 then
        let d := wrapNegU64 n
        if s.pos < d then (Except.error ErrKind.invalidInput, s)
        else (Except.ok (s.pos - d), { s with pos := s.pos - d })
      else
        let newPos := s.pos + n.toNat
        if s.buf.length < newPos then
          match readUpTo (newPos - s.buf.length) s.src with
          | (some e, got, src2) =>
              (Except.error e, { s with src := src2, buf := s.buf ++ got })
          | (none, got, src2) =>
              let buf2 := s.buf ++ got
              if buf2.length < newPos then
                (Except.error ErrKind.invalidInput, { s with src := src2, buf := buf2 })
              else (Except.ok newPos, { s with src := src2, buf := buf2, pos := newPos })
        else (Except.ok newPos, { s with pos := newPos })

/-- A pure slice-like source producing exactly the bytes `L`. -/
def pureSrc (L : List Nat) : Src := [SrcEvent.chunk L]

/-- Reading the stream to completion through raw reads with a destination
of capacity `c`: repeat `rawRead` until it reports a count of 0 (or an
error), concatenating everything produced.  `fuel` bounds the number of
calls. -/
def readAll (c : Nat) : Nat → AccReader → List Nat × AccReader
  | 0, s => ([], s)
  | fuel + 1, s =>
      match rawRead s c with
      | (Except.ok [], s2) => ([], s2)
      | (Except.ok bs, s2) =>
          let r := readAll c fuel s2
          (bs ++ r.1, r.2)
      | (Except.error _, s2) => ([], s2)

/-- The byte sequence of the running example shared by the concrete
scenarios (`[5,6,7,0,1,2,3,4]`). -/
def sampleBytes : List Nat := [5, 6, 7, 0, 1, 2, 3, 4]

/-- One 2-byte raw read, keeping only the resulting state. -/
def rd2 (s : AccReader) : AccReader := (rawRead s 2).2

/-- Claim C1 counterexample: on the 8-byte source `[5,6,7,0,1,2,3,4]` the
fourth 2-byte raw read yields the two bytes `[3,4]` (count 2), not the
single byte `[3]` the claim asserts. -/
theorem c1_counterexample :
    (rawRead (rd2 (rd2 (rd2 (AccReader.new (pureSrc sampleBytes))))) 2).1
        = Except.ok [3, 4] ∧
      (rawRead (rd2 (rd2 (rd2 (AccReader.new (pureSrc sampleBytes))))) 2).1
        ≠ Except.ok [3] := by
  constructor
  · rfl
  · intro h
    have h1 : (rawRead (rd2 (rd2 (rd2 (AccReader.new (pureSrc sampleBytes))))) 2).1
        = Except.ok [3, 4] := rfl
    rw [h1] at h
    simp at h

/-- Claim C1 (amended): on the 8-byte source `[5,6,7,0,1,2,3,4]`,
successive raw reads with a 2-byte destination yield `[5,6]`, `[7,0]`,
`[1,2]`, `[3,4]`, after which a further raw read reports count 0
(end-of-stream). -/
theorem c1_raw_read_scenario :
    (rawRead (AccReader.new (pureSrc sampleBytes)) 2).1 = Except.ok [5, 6] ∧
      (rawRead (rd2 (AccReader.new (pureSrc sampleBytes))) 2).1 = Except.ok [7, 0] ∧
      (rawRead (rd2 (rd2 (AccReader.new (pureSrc sampleBytes)))) 2).1 = Except.ok [1, 2] ∧
      (rawRead (rd2 (rd2 (rd2 (AccReader.new (pureSrc sampleBytes))))) 2).1
        = Except.ok [3, 4] ∧
      (rawRead (rd2 (rd2 (rd2 (rd2 (AccReader.new (pureSrc sampleBytes)))))) 2).1
        = Except.ok [] := by
  exact ⟨rfl, rfl, rfl, rfl, rfl⟩

/-- One fill-then-consume(3) round, keeping only the resulting state. -/
def fc3 (s : AccReader) : AccReader := consume (fill s).2 3

/-- Claim C9: with source bytes `[5,6,7,0,1,2,3,4]` and growth increment 3,
successive fill-then-consume(3) pairs expose the slices `[5,6,7]`, then
`[0,1,2]`, then `[3,4]`, and after that fill returns an empty slice at
end-of-stream. -/
theorem c9_buffered_scenario :
    (fill (withInitialCapacityAndIncrement 3 3 (pureSrc sampleBytes))).1
        = Except.ok [5, 6, 7] ∧
      (fill (fc3 (withInitialCapacityAndIncrement 3 3 (pureSrc sampleBytes)))).1
        = Except.ok [0, 1, 2] ∧
      (fill (fc3 (fc3 (withInitialCapacityAndIncrement 3 3 (pureSrc sampleBytes))))).1
        = Except.ok [3, 4] ∧
      (fill (fc3 (fc3 (fc3 (withInitialCapacityAndIncrement 3 3 (pureSrc sampleBytes)))))).1
        = Except.ok [] := by
  exact ⟨rfl, rfl, rfl, rfl⟩

/-- Claim C2 counterexample: with one byte buffered and unconsumed
(`pos = 0 < 1 = buf.length`), a raw read with a zero-capacity destination
returns count 0 even though buffered data is pending, because the serve
size `min(available, 0)` is 0 and the source read of an empty destination
obtains nothing. -/
theorem c2_counterexample :
    (rawRead { src := [SrcEvent.chunk [1]], buf := [9], pos := 0, inc := 1024 } 0).1
        = Except.ok [] ∧
      (0 : Nat) < ([9] : List Nat).length := by
  exact ⟨rfl, by decide⟩

/-- Claim C2 (amended): for a raw read with a destination of nonzero
capacity `n > 0`, under the cursor invariant, a successful call returns
count 0 exactly when no buffered data was pending (cursor at accumulator
length) and the source read performed by the call itself returned 0 bytes
(end-of-stream); in particular the count is nonzero whenever buffered data
is pending. -/
theorem c2_raw_read_zero_iff (s : AccReader) (n : Nat) (hn : 0 < n)
    (hinv : s.pos ≤ s.buf.length) (out : List Nat) (s2 : AccReader)
    (h : rawRead s n = (Except.ok out, s2)) :
    out = [] ↔ s.pos = s.buf.length ∧ (srcRead s.src n).1 = Except.ok [] := by
  simp only [rawRead] at h
  split at h
  · next hneed =>
    have hout : out = (s.buf.drop s.pos).take (min (s.buf.length - s.pos) n) :=
      ((Prod.mk.injEq _ _ _ _).mp h).1.symm |> Except.ok.inj
    constructor
    · intro hnil
      rw [hout] at hnil
      have hlen := congrArg List.length hnil
      simp [List.length_take, List.length_drop] at hlen
      omega
    · rintro ⟨hpos, -⟩
      omega
  · next hneed =>
    have hpos : s.pos = s.buf.length := by omega
    rcases hsr : srcRead s.src n with ⟨r, src2⟩
    rw [hsr] at h
    cases r with
    | ok bs =>
        have hout : out = bs := (((Prod.mk.injEq _ _ _ _).mp h).1.symm |> Except.ok.inj)
        simp [hout, hpos]
    | error e => simp at h

/-- Witness for C2's amended theorem at a concrete successful read. -/
theorem c2_witness :
    (([7] : List Nat) = [] ↔
      (AccReader.new (pureSrc [7])).pos = (AccReader.new (pureSrc [7])).buf.length ∧
        (srcRead (AccReader.new (pureSrc [7])).src 1).1 = Except.ok []) :=
  c2_raw_read_zero_iff (AccReader.new (pureSrc [7])) 1 (by decide) (by decide) [7] _ rfl

/-- Claim C3 counterexample: an interruption-class error from the source is
returned to the caller by the raw-read operation (the Rust `Read::read`
implementation propagates it with `try!` instead of retrying), so
interruption errors are observable through the adapter's public
interface. -/
theorem c3_counterexample :
    (rawRead (AccReader.new [SrcEvent.err ErrKind.interrupted, SrcEvent.chunk [1]]) 1).1
      = Except.error ErrKind.interrupted := rfl

/-- `read_up_to` swallows every interruption error and retries, so it never
reports an interruption to its caller. -/
theorem readUpTo_no_interrupt (src : Src) :
    ∀ (n : Nat) (k : ErrKind), (readUpTo n src).1 = some k → k ≠ ErrKind.interrupted := by
  induction src with
  | nil =>
      intro n k h
      simp only [readUpTo] at h
      split at h
      · simp at h
      · simp at h
  | cons ev rest ih =>
      intro n k h
      rw [readUpTo.eq_def] at h
      split at h
      · simp at h
      · cases ev with
        | chunk bs =>
            simp only at h
            split at h
            · simp at h
            · split at h
              · simp at h
              · exact ih (n - bs.length) k h
        | err k2 =>
            simp only at h
            split at h
            · exact ih n k h
            · next hk2 =>
                have hkk : k2 = k := by simpa using h
                intro hk
                exact hk2 (by rw [hkk, hk])

/-- `read_to_end` swallows every interruption error and retries, so it
never reports an interruption to its caller. -/
theorem readToEndSrc_no_interrupt (src : Src) :
    ∀ k : ErrKind, (readToEndSrc src).1 = some k → k ≠ ErrKind.interrupted := by
  induction src with
  | nil => intro k h; simp [readToEndSrc] at h
  | cons ev rest ih =>
      intro k h
      cases ev with
      | chunk bs =>
          simp only [readToEndSrc] at h
          split at h
          · simp at h
          · exact ih k h
      | err k2 =>
          simp only [readToEndSrc] at h
          split at h
          · exact ih k h
          · next hk2 =>
              have hkk : k2 = k := by simpa using h
              intro hk
              exact hk2 (by rw [hkk, hk])

/-- Claim C3 (amended): every seek operation (absolute, relative-to-current
or relative-to-end) retries interruption-class source errors internally and
never returns one to the caller; the raw-read and fill operations, in
contrast, propagate source errors — including interruption — unchanged
(see the counterexample). -/
theorem c3_seek_never_interrupted (s : AccReader) (v : SeekFrom) (e : ErrKind)
    (h : (seek s v).1 = Except.error e) : e ≠ ErrKind.interrupted := by
  cases v with
  | fromEnd n =>
      simp only [seek] at h
      split at h
      · have : e = ErrKind.invalidInput := by simpa using h.symm
        simp [this]
      · rcases hre : readToEndSrc s.src with ⟨o, got, src2⟩
        rw [hre] at h
        cases o with
        | some e2 =>
            have he2 : e = e2 := by simpa using h.symm
            rw [he2]
            exact readToEndSrc_no_interrupt s.src e2 (by rw [hre])
        | none =>
            simp only at h
            split at h
            · have : e = ErrKind.invalidInput := by simpa using h.symm
              simp [this]
            · simp at h
  | start n =>
      simp only [seek] at h
      split at h
      · simp at h
      · rcases hru : readUpTo (n - s.buf.length) s.src with ⟨o, got, src2⟩
        rw [hru] at h
        cases o with
        | some e2 =>
            have he2 : e = e2 := by simpa using h.symm
            rw [he2]
            exact readUpTo_no_interrupt s.src (n - s.buf.length) e2 (by rw [hru])
        | none =>
            simp only at h
            split at h
            · have : e = ErrKind.invalidInput := by simpa using h.symm
              simp [this]
            · simp at h
  | current n =>
      simp only [seek] at h
      split at h
      · simp at h
      · split at h
        · split at h
          · have : e = ErrKind.invalidInput := by simpa using h.symm
            simp [this]
          · simp at h
        · split at h
          · rcases hru : readUpTo (s.pos + n.toNat - s.buf.length) s.src with ⟨o, got, src2⟩
            rw [hru] at h
            cases o with
            | some e2 =>
                have he2 : e = e2 := by simpa using h.symm
                rw [he2]
                exact readUpTo_no_interrupt s.src (s.pos + n.toNat - s.buf.length) e2
                  (by rw [hru])
            | none =>
                simp only at h
                split at h
                · have : e = ErrKind.invalidInput := by simpa using h.symm
                  simp [this]
                · simp at h
          · simp at h

/-- Witness for C3's amended theorem at a concrete failing seek. -/
theorem c3_witness : ErrKind.invalidInput ≠ ErrKind.interrupted :=
  c3_seek_never_interrupted (AccReader.new []) (SeekFrom.fromEnd 1)
    ErrKind.invalidInput rfl

/-- Claim C4: every seek request that fails with the out-of-range
(invalid-input) error leaves the cursor exactly at its pre-seek value,
while the bytes pulled from the source during the attempt remain appended
to the accumulator (the accumulator is an extension of the old one). -/
theorem c4_failed_seek_rolls_back_cursor_only (s : AccReader) (v : SeekFrom)
    (s2 : AccReader) (h : seek s v = (Except.error ErrKind.invalidInput, s2)) :
    s2.pos = s.pos ∧ ∃ t, s2.buf = s.buf ++ t := by
  cases v with
  | fromEnd n =>
      simp only [seek] at h
      split at h
      · obtain ⟨-, h2⟩ := Prod.mk.injEq .. |>.mp h
        subst h2
        exact ⟨rfl, [], (List.append_nil _).symm⟩
      · rcases hre : readToEndSrc s.src with ⟨o, got, src2⟩
        rw [hre] at h
        cases o with
        | some e2 =>
            obtain ⟨-, h2⟩ := Prod.mk.injEq .. |>.mp h
            subst h2
            exact ⟨rfl, got, rfl⟩
        | none =>
            simp only at h
            split at h
            · obtain ⟨-, h2⟩ := Prod.mk.injEq .. |>.mp h
              subst h2
              exact ⟨rfl, got, rfl⟩
            · simp at h
  | start n =>
      simp only [seek] at h
      split at h
      · simp at h
      · rcases hru : readUpTo (n - s.buf.length) s.src with ⟨o, got, src2⟩
        rw [hru] at h
        cases o with
        | some e2 =>
            obtain ⟨-, h2⟩ := Prod.mk.injEq .. |>.mp h
            subst h2
            exact ⟨rfl, got, rfl⟩
        | none =>
            simp only at h
            split at h
            · obtain ⟨-, h2⟩ := Prod.mk.injEq .. |>.mp h
              subst h2
              exact ⟨rfl, got, rfl⟩
            · simp at h
  | current n =>
      simp only [seek] at h
      split at h
      · simp at h
      · split at h
        · split at h
          · obtain ⟨-, h2⟩ := Prod.mk.injEq .. |>.mp h
            subst h2
            exact ⟨rfl, [], (List.append_nil _).symm⟩
          · simp at h
        · split at h
          · rcases hru : readUpTo (s.pos + n.toNat - s.buf.length) s.src with ⟨o, got, src2⟩
            rw [hru] at h
            cases o with
            | some e2 =>
                obtain ⟨-, h2⟩ := Prod.mk.injEq .. |>.mp h
                subst h2
                exact ⟨rfl, got, rfl⟩
            | none =>
                simp only at h
                split at h
                · obtain ⟨-, h2⟩ := Prod.mk.injEq .. |>.mp h
                  subst h2
                  exact ⟨rfl, got, rfl⟩
                · simp at h
          · simp at h

/-- Witness for C4 at a concrete out-of-range absolute seek: two bytes are
pulled from the source and kept, while the cursor stays at 0. -/
theorem c4_witness :
    (seek (AccReader.new (pureSrc [1, 2])) (SeekFrom.start 5)).2.pos
        = (AccReader.new (pureSrc [1, 2])).pos ∧
      ∃ t, (seek (AccReader.new (pureSrc [1, 2])) (SeekFrom.start 5)).2.buf
        = (AccReader.new (pureSrc [1, 2])).buf ++ t :=
  c4_failed_seek_rolls_back_cursor_only (AccReader.new (pureSrc [1, 2]))
    (SeekFrom.start 5) _ rfl

/-- One consumer-facing operation of the adapter. -/
inductive Op where
  | read (n : Nat)
  | fill
  | consume (amt : Nat)
  | seek (v : SeekFrom)

/-- The state reached after performing one operation (its result value,
successful or not, is discarded). -/
def step (op : Op) (s : AccReader) : AccReader :=
  match op with
  | Op.read n => (rawRead s n).2
  | Op.fill => (fill s).2
  | Op.consume amt => consume s amt
  | Op.seek v => (seek s v).2

/-- The state reached after performing a sequence of operations. -/
def runOps (ops : List Op) (s : AccReader) : AccReader :=
  ops.foldl (fun t op => step op t) s

/-- Every single operation preserves the cursor bound and only ever appends
to the accumulator. -/
theorem step_inv (op : Op) (s : AccReader) (h : s.pos ≤ s.buf.length) :
    (step op s).pos ≤ (step op s).buf.length ∧ ∃ t, (step op s).buf = s.buf ++ t := by
  cases op with
  | read n =>
      simp only [step, rawRead]
      split
      · next hneed =>
          refine ⟨?_, [], (List.append_nil _).symm⟩
          simp only [List.length_append]  -- buffer unchanged
          omega
      · rcases hsr : srcRead s.src n with ⟨r, src2⟩
        cases r with
        | ok bs =>
            simp only
            refine ⟨?_, bs, rfl⟩
            simp only [List.length_append]
            omega
        | error e => exact ⟨h, [], (List.append_nil _).symm⟩
  | fill =>
      simp only [step, fill]
      split
      · rcases hsr : srcRead s.src (s.buf.length + s.inc - s.pos) with ⟨r, src2⟩
        cases r with
        | ok bs =>
            simp only
            refine ⟨?_, bs, rfl⟩
            simp only [List.length_append]
            omega
        | error e => exact ⟨h, [], (List.append_nil _).symm⟩
      · exact ⟨h, [], (List.append_nil _).symm⟩
  | consume amt =>
      simp only [step, consume]
      exact ⟨by omega, [], (List.append_nil _).symm⟩
  | seek v =>
      cases v with
      | fromEnd n =>
          simp only [step, seek]
          split
          · exact ⟨h, [], (List.append_nil _).symm⟩
          · rcases hre : readToEndSrc s.src with ⟨o, got, src2⟩
            cases o with
            | some e => exact ⟨by simpa using h.trans (by simp), got, rfl⟩
            | none =>
                simp only
                split
                · exact ⟨by simpa using h.trans (by simp), got, rfl⟩
                · exact ⟨by simp, got, rfl⟩
      | start n =>
          simp only [step, seek]
          split
          · next hle => exact ⟨hle, [], (List.append_nil _).symm⟩
          · rcases hru : readUpTo (n - s.buf.length) s.src with ⟨o, got, src2⟩
            cases o with
            | some e => exact ⟨by simpa using h.trans (by simp), got, rfl⟩
            | none =>
                simp only
                split
                · exact ⟨by simpa using h.trans (by simp), got, rfl⟩
                · next hge => exact ⟨by dsimp only; omega, got, rfl⟩
      | current n =>
          simp only [step, seek]
          split
          · exact ⟨h, [], (List.append_nil _).symm⟩
          · split
            · split
              · exact ⟨h, [], (List.append_nil _).symm⟩
              · exact ⟨by dsimp only; omega, [], (List.append_nil _).symm⟩
            · split
              · rcases hru : readUpTo (s.pos + n.toNat - s.buf.length) s.src with ⟨o, got, src2⟩
                cases o with
                | some e => exact ⟨by simpa using h.trans (by simp), got, rfl⟩
                | none =>
                    simp only
                    split
                    · exact ⟨by simpa using h.trans (by simp), got, rfl⟩
                    · next hge => exact ⟨by dsimp only; omega, got, rfl⟩
              · next hnp => exact ⟨by dsimp only; omega, [], (List.append_nil _).symm⟩

/-- Running any sequence of operations preserves the cursor bound and only
appends to the accumulator. -/
theorem runOps_inv (ops : List Op) (s : AccReader) (h : s.pos ≤ s.buf.length) :
    (runOps ops s).pos ≤ (runOps ops s).buf.length ∧
      ∃ t, (runOps ops s).buf = s.buf ++ t := by
  induction ops generalizing s with
  | nil => exact ⟨h, [], (List.append_nil _).symm⟩
  | cons op ops ih =>
      have h1 := step_inv op s h
      have h2 := ih (step op s) h1.1
      refine ⟨h2.1, ?_⟩
      obtain ⟨t1, ht1⟩ := h1.2
      obtain ⟨t2, ht2⟩ := h2.2
      exact ⟨t1 ++ t2, by
        show (runOps ops (step op s)).buf = _
        rw [ht2, ht1, List.append_assoc]⟩

/-- Claim C5: for every sequence of operations from a freshly constructed
adapter, after each operation the structural invariant
`pos ≤ buf.length` holds, the accumulator is only ever appended to
(never shrunk or reordered), and `consume amt` clamps the cursor to the
buffer length. -/
theorem c5_cursor_invariant (cap inc : Nat) (src : Src) (ops : List Op) :
    (runOps ops (withInitialCapacityAndIncrement cap inc src)).pos
        ≤ (runOps ops (withInitialCapacityAndIncrement cap inc src)).buf.length ∧
      (∀ more, ∃ t, (runOps (ops ++ more) (withInitialCapacityAndIncrement cap inc src)).buf
        = (runOps ops (withInitialCapacityAndIncrement cap inc src)).buf ++ t) ∧
      (∀ (t : AccReader) (amt : Nat),
        (consume t amt).pos = min (t.pos + amt) t.buf.length ∧
          (consume t amt).pos ≤ t.buf.length) := by
  refine ⟨(runOps_inv ops _ (by simp [withInitialCapacityAndIncrement])).1, ?_, ?_⟩
  · intro more
    have hsplit : runOps (ops ++ more) (withInitialCapacityAndIncrement cap inc src)
        = runOps more (runOps ops (withInitialCapacityAndIncrement cap inc src)) := by
      simp [runOps, List.foldl_append]
    rw [hsplit]
    exact (runOps_inv more _
      (runOps_inv ops _ (by simp [withInitialCapacityAndIncrement])).1).2
  · intro t amt
    exact ⟨rfl, by simp [consume]⟩

/-- Reading to completion from a state whose source is exhausted and whose
cursor sits at the end of the accumulator yields nothing and changes
nothing. -/
theorem readAll_exhausted (c : Nat) (fuel : Nat) (s : AccReader)
    (hsrc : s.src = []) (hpos : s.pos = s.buf.length) (hf : 0 < fuel) :
    (readAll c fuel s).1 = [] ∧ (readAll c fuel s).2.src = [] ∧
      (readAll c fuel s).2.buf = s.buf ∧ (readAll c fuel s).2.pos = s.pos := by
  obtain ⟨src, buf, pos, inc⟩ := s
  simp only at hsrc hpos
  subst hsrc
  subst hpos
  cases fuel with
  | zero => omega
  | succ f => simp [readAll, rawRead, srcRead]

/-- Reading to completion from a state whose cursor sits at the end of the
accumulator, with a single slice-like chunk `M` left in the source, drains
exactly `M`, appends it to the accumulator, and leaves the cursor at the
new end. -/
theorem readAll_drain (c : Nat) (hc : 0 < c) :
    ∀ (fuel : Nat) (M : List Nat) (s : AccReader),
      s.src = [SrcEvent.chunk M] → s.pos = s.buf.length → M.length < fuel →
      (readAll c fuel s).1 = M ∧ (readAll c fuel s).2.src = [] ∧
        (readAll c fuel s).2.buf = s.buf ++ M ∧
        (readAll c fuel s).2.pos = s.buf.length + M.length := by
  intro fuel
  induction fuel with
  | zero => intro M s _ _ hlt; omega
  | succ f ih =>
      intro M s hsrc hpos hlt
      obtain ⟨src, buf, pos, inc⟩ := s
      simp only at hsrc hpos
      subst hsrc
      subst hpos
      cases M with
      | nil => simp [readAll, rawRead, srcRead]
      | cons m M2 =>
          have hrr : rawRead ⟨[SrcEvent.chunk (m :: M2)], buf, buf.length, inc⟩ c
              = (Except.ok ((m :: M2).take c),
                  { src := if (m :: M2).drop c = [] then []
                      else [SrcEvent.chunk ((m :: M2).drop c)],
                    buf := buf ++ (m :: M2).take c,
                    pos := buf.length + ((m :: M2).take c).length, inc := inc }) := by
            simp [rawRead, srcRead]
          rcases htk : (m :: M2).take c with _ | ⟨b, bs⟩
          · exfalso
            have := congrArg List.length htk
            simp at this
            omega
          · have hmatch : readAll c (f + 1) ⟨[SrcEvent.chunk (m :: M2)], buf, buf.length, inc⟩
                = ((b :: bs) ++ (readAll c f
                    { src := if (m :: M2).drop c = [] then []
                        else [SrcEvent.chunk ((m :: M2).drop c)],
                      buf := buf ++ (m :: M2).take c,
                      pos := buf.length + ((m :: M2).take c).length, inc := inc }).1,
                    (readAll c f
                    { src := if (m :: M2).drop c = [] then []
                        else [SrcEvent.chunk ((m :: M2).drop c)],
                      buf := buf ++ (m :: M2).take c,
                      pos := buf.length + ((m :: M2).take c).length, inc := inc }).2) := by
              simp only [readAll, hrr, htk]
            by_cases hdp : (m :: M2).drop c = []
            · have htake_all : (m :: M2).take c = m :: M2 := by
                have hlen : (m :: M2).length ≤ c := by
                  have h0 := congrArg List.length hdp
                  simp only [List.length_drop, List.length_cons, List.length_nil] at h0
                  simp only [List.length_cons]
                  omega
                exact List.take_of_length_le hlen
              have hrec := readAll_exhausted c f
                { src := ([] : Src), buf := buf ++ (m :: M2).take c,
                  pos := buf.length + ((m :: M2).take c).length, inc := inc }
                rfl (by simp) (by simp only [List.length_cons] at hlt; omega)
              rw [hmatch]
              simp only [hdp, if_pos]
              refine ⟨?_, ?_, ?_, ?_⟩
              · rw [hrec.1, ← htk, htake_all]
                simp
              · exact hrec.2.1
              · rw [hrec.2.2.1]
                simp [htake_all]
              · rw [hrec.2.2.2]
                simp [htake_all]
            · have hrec := ih ((m :: M2).drop c)
                { src := [SrcEvent.chunk ((m :: M2).drop c)],
                  buf := buf ++ (m :: M2).take c,
                  pos := buf.length + ((m :: M2).take c).length, inc := inc }
                rfl (by simp) (by
                  simp only [List.length_drop]
                  have : 0 < ((m :: M2).take c).length := by
                    rw [htk]; simp
                  simp only [List.length_take] at this
                  omega)
              rw [hmatch]
              simp only [hdp, if_neg, ite_false]
              refine ⟨?_, ?_, ?_, ?_⟩
              · rw [hrec.1, ← htk]
                exact List.take_append_drop c (m :: M2)
              · exact hrec.2.1
              · rw [hrec.2.2.1]
                simp [List.append_assoc]
              · rw [hrec.2.2.2]
                simp only [List.length_append, List.length_take, List.length_drop]
                omega

/-- Reading to completion from a state whose source is exhausted serves the
whole unconsumed part of the accumulator. -/
theorem readAll_buffered (c : Nat) (hc : 0 < c) :
    ∀ (fuel : Nat) (s : AccReader), s.src = [] → s.pos ≤ s.buf.length →
      s.buf.length - s.pos < fuel →
      (readAll c fuel s).1 = s.buf.drop s.pos := by
  intro fuel
  induction fuel with
  | zero => intro s _ _ hlt; omega
  | succ f ih =>
      intro s hsrc hinv hlt
      obtain ⟨src, buf, pos, inc⟩ := s
      simp only at hsrc hinv hlt ⊢
      subst hsrc
      by_cases hend : buf.length ≤ pos
      · have hp : pos = buf.length := by omega
        subst hp
        simp [readAll, rawRead, srcRead, List.drop_length]
      · have hneed : 0 < min (buf.length - pos) c := by omega
        have hrr : rawRead ⟨[], buf, pos, inc⟩ c
            = (Except.ok ((buf.drop pos).take (min (buf.length - pos) c)),
                ⟨[], buf, pos + min (buf.length - pos) c, inc⟩) := by
          simp only [rawRead]
          rw [if_pos hneed]
        rcases htk : (buf.drop pos).take (min (buf.length - pos) c) with _ | ⟨b, bs⟩
        · exfalso
          have := congrArg List.length htk
          simp at this
          omega
        · have hmatch : readAll c (f + 1) ⟨[], buf, pos, inc⟩
              = ((b :: bs)
                  ++ (readAll c f ⟨[], buf, pos + min (buf.length - pos) c, inc⟩).1,
                  (readAll c f ⟨[], buf, pos + min (buf.length - pos) c, inc⟩).2) := by
            simp only [readAll, hrr, htk]
          rw [hmatch]
          have hrec := ih ⟨[], buf, pos + min (buf.length - pos) c, inc⟩ rfl
            (by simp; omega) (by simp; omega)
          simp only at hrec
          rw [hrec, ← htk]
          have hdd : buf.drop (pos + min (buf.length - pos) c)
              = (buf.drop pos).drop (min (buf.length - pos) c) := by
            rw [List.drop_drop]
          rw [hdd]
          exact List.take_append_drop _ (buf.drop pos)

/-- Claim C6: for every finite byte sequence `L` produced by a slice-like
source, reading the stream to completion through raw reads (with any
nonzero destination capacity `c`), seeking to absolute position 0, and
reading to completion again yields exactly the same byte sequence both
times. -/
theorem c6_replay_invariant (L : List Nat) (c : Nat) (hc : 0 < c) :
    (readAll c (L.length + 1) (AccReader.new (pureSrc L))).1
      = (readAll c (L.length + 1)
          ((seek (readAll c (L.length + 1) (AccReader.new (pureSrc L))).2
            (SeekFrom.start 0)).2)).1 := by
  have h1 := readAll_drain c hc (L.length + 1) L (AccReader.new (pureSrc L))
    rfl rfl (by omega)
  set s1 := (readAll c (L.length + 1) (AccReader.new (pureSrc L))).2 with hs1
  have hseek : seek s1 (SeekFrom.start 0) = (Except.ok 0, { s1 with pos := 0 }) := by
    simp only [seek]
    rw [if_pos (Nat.zero_le _)]
  rw [hseek]
  have h2 := readAll_buffered c hc (L.length + 1) { s1 with pos := 0 }
    (by simp only; exact h1.2.1) (by simp) (by
      simp only
      have := h1.2.2.1
      have hlen : s1.buf.length = L.length := by
        rw [this]
        simp [AccReader.new, withInitialCapacityAndIncrement]
      omega)
  simp only at h2
  rw [h2, h1.1]
  rw [h1.2.2.1]
  simp [AccReader.new, withInitialCapacityAndIncrement]

/-- Witness for C6 at the concrete sequence `[1,2,3]` with 2-byte reads. -/
theorem c6_witness :
    (readAll 2 (([1, 2, 3] : List Nat).length + 1) (AccReader.new (pureSrc [1, 2, 3]))).1
      = (readAll 2 (([1, 2, 3] : List Nat).length + 1)
          ((seek (readAll 2 (([1, 2, 3] : List Nat).length + 1)
              (AccReader.new (pureSrc [1, 2, 3]))).2
            (SeekFrom.start 0)).2)).1 :=
  c6_replay_invariant [1, 2, 3] 2 (by decide)

/-- Draining a pure slice-like source delivers exactly its bytes. -/
theorem readToEndSrc_pure (L : List Nat) : readToEndSrc (pureSrc L) = (none, L, []) := by
  cases L with
  | nil => rfl
  | cons m M => simp [readToEndSrc, pureSrc]

/-- For a magnitude `k` representable in 64 bits, the wrapping-negation
magnitude of the offset `-k` is exactly `k`. -/
theorem wrapNegU64_negOfNat (k : Nat) (h : k < 2 ^ 64) : wrapNegU64 (-(k : Int)) = k := by
  unfold wrapNegU64
  rw [neg_neg]
  rw [Int.emod_eq_of_lt (Int.natCast_nonneg k) (by exact_mod_cast h)]
  simp

/-- Claim C7: for a finite source of total length `L.length`, seeking to
end-relative offset `-k` with `0 < k ≤ L.length` succeeds (cursor at
`L.length - k`) and reading to completion afterwards yields exactly the
last `k` bytes of the source; for `k > L.length` the end-relative seek
fails with an invalid-input error.  (The length bounds against `2^63`
record that the offsets are 64-bit values in the program.) -/
theorem c7_end_seek (L : List Nat) (k c : Nat) :
    (0 < k → k ≤ L.length → L.length < 2 ^ 63 → 0 < c →
      (seek (AccReader.new (pureSrc L)) (SeekFrom.fromEnd (-(k : Int)))).1
          = Except.ok (L.length - k) ∧
        (readAll c (k + 1)
          ((seek (AccReader.new (pureSrc L)) (SeekFrom.fromEnd (-(k : Int)))).2)).1
          = L.drop (L.length - k)) ∧
      (L.length < k → k ≤ 2 ^ 63 →
        (seek (AccReader.new (pureSrc L)) (SeekFrom.fromEnd (-(k : Int)))).1
          = Except.error ErrKind.invalidInput) := by
  have hne : ¬(0 : Int) < -(k : Int) := by omega
  constructor
  · intro hk hkL hL63 hc
    have hk64 : k < 2 ^ 64 := lt_of_le_of_lt hkL (lt_trans hL63 (by norm_num))
    have hd := wrapNegU64_negOfNat k hk64
    have hsk : seek (AccReader.new (pureSrc L)) (SeekFrom.fromEnd (-(k : Int)))
        = (Except.ok (([] ++ L : List Nat).length - k),
            { src := [], buf := [] ++ L, pos := ([] ++ L : List Nat).length - k,
              inc := DEFAULT_BUF_INCREMENT }) := by
      simp only [seek]
      rw [if_neg hne]
      simp only [AccReader.new, withInitialCapacityAndIncrement]
      rw [readToEndSrc_pure]
      dsimp only
      rw [hd]
      rw [if_neg (by simp only [List.nil_append]; omega)]
    rw [hsk]
    constructor
    · simp
    · have hb := readAll_buffered c hc (k + 1)
        { src := [], buf := [] ++ L, pos := ([] ++ L : List Nat).length - k,
          inc := DEFAULT_BUF_INCREMENT }
        rfl (by simp) (by simp only [List.nil_append]; omega)
      simp only [List.nil_append] at hb ⊢
      exact hb
  · intro hkL hk63
    have hk64 : k < 2 ^ 64 := lt_of_le_of_lt hk63 (by norm_num)
    have hd := wrapNegU64_negOfNat k hk64
    simp only [seek]
    rw [if_neg hne]
    simp only [AccReader.new, withInitialCapacityAndIncrement]
    rw [readToEndSrc_pure]
    dsimp only
    rw [hd]
    rw [if_pos (by simp only [List.nil_append]; omega)]

/-- Witness for C7: on the 3-byte source `[5,6,7]`, seeking to end-relative
offset `-2` lands at position 1 and reading to completion yields `[6,7]`;
seeking to end-relative offset `-4` fails with invalid-input. -/
theorem c7_witness :
    ((seek (AccReader.new (pureSrc [5, 6, 7])) (SeekFrom.fromEnd (-((2 : Nat) : Int)))).1
        = Except.ok (([5, 6, 7] : List Nat).length - 2) ∧
      (readAll 2 (2 + 1)
        ((seek (AccReader.new (pureSrc [5, 6, 7])) (SeekFrom.fromEnd (-((2 : Nat) : Int)))).2)).1
        = ([5, 6, 7] : List Nat).drop (([5, 6, 7] : List Nat).length - 2)) ∧
      (seek (AccReader.new (pureSrc [5, 6, 7])) (SeekFrom.fromEnd (-((4 : Nat) : Int)))).1
        = Except.error ErrKind.invalidInput :=
  ⟨(c7_end_seek [5, 6, 7] 2 2).1 (by decide) (by decide) (by norm_num) (by decide),
    (c7_end_seek [5, 6, 7] 4 2).2 (by decide) (by norm_num)⟩

/-- Total number of bytes a source script can still deliver (error events
deliver none). -/
def srcLen (src : Src) : Nat :=
  (src.map fun e =>
    match e with
    | SrcEvent.chunk bs => bs.length
    | SrcEvent.err _ => 0).sum

/-- A source that behaves like a plain slice: either already exhausted or a
single chunk of bytes. -/
def IsPureSrc (src : Src) : Prop :=
  src = [] ∨ ∃ M, src = [SrcEvent.chunk M]

/-- On a pure slice-like source, `read_up_to` never fails, obtains
`min n (srcLen src)` bytes, and leaves a pure source holding the rest. -/
theorem readUpTo_pure (n : Nat) (src : Src) (h : IsPureSrc src) :
    (readUpTo n src).1 = none ∧
      (readUpTo n src).2.1.length = min n (srcLen src) ∧
      IsPureSrc (readUpTo n src).2.2 ∧
      srcLen (readUpTo n src).2.2 = srcLen src - n := by
  rcases h with h | ⟨M, h⟩
  · subst h
    rw [readUpTo.eq_def]
    split
    · next h0 =>
        subst h0
        exact ⟨rfl, by simp [srcLen], Or.inl rfl, by simp [srcLen]⟩
    · exact ⟨rfl, by simp [srcLen], Or.inl rfl, by simp [srcLen]⟩
  · subst h
    rw [readUpTo.eq_def]
    split
    · next h0 =>
        subst h0
        exact ⟨rfl, by simp [srcLen], Or.inr ⟨M, rfl⟩, by simp [srcLen]⟩
    · next h0 =>
        dsimp only
        split
        · next hM =>
            subst hM
            exact ⟨rfl, by simp [srcLen], Or.inl rfl, by simp [srcLen]⟩
        · next hM =>
            split
            · next hn =>
                refine ⟨rfl, by simp [srcLen], ?_, ?_⟩
                · split
                  · exact Or.inl rfl
                  · exact Or.inr ⟨M.drop n, rfl⟩
                · split
                  · next hdp =>
                      have h0 := congrArg List.length hdp
                      simp only [List.length_drop, List.length_nil] at h0
                      simp [srcLen]
                      omega
                  · simp [srcLen]
            · next hn =>
                have hrec : readUpTo (n - M.length) ([] : Src) = (none, [], []) := by
                  rw [readUpTo.eq_def]
                  split <;> rfl
                rw [hrec]
                refine ⟨rfl, by simp [srcLen]; omega, Or.inl rfl, by simp [srcLen]; omega⟩

/-- On a pure slice-like source with enough bytes available, a forward
relative-to-current seek by `m` succeeds, lands the cursor at `pos + m`,
keeps the source pure and the invariant intact, and conserves the total
number of bytes (buffered plus still in the source). -/
theorem seek_current_pure (s : AccReader) (m : Nat) (hpure : IsPureSrc s.src)
    (hinv : s.pos ≤ s.buf.length)
    (havail : s.pos + m ≤ s.buf.length + srcLen s.src) :
    (seek s (SeekFrom.current (m : Int))).1 = Except.ok (s.pos + m) ∧
      (seek s (SeekFrom.current (m : Int))).2.pos = s.pos + m ∧
      IsPureSrc (seek s (SeekFrom.current (m : Int))).2.src ∧
      (seek s (SeekFrom.current (m : Int))).2.pos
          ≤ (seek s (SeekFrom.current (m : Int))).2.buf.length ∧
      (seek s (SeekFrom.current (m : Int))).2.buf.length
            + srcLen (seek s (SeekFrom.current (m : Int))).2.src
        = s.buf.length + srcLen s.src := by
  by_cases hm0 : m = 0
  · subst hm0
    simp only [seek]
    rw [if_pos (by simp)]
    exact ⟨by simp, by simp, hpure, hinv, rfl⟩
  · simp only [seek]
    rw [if_neg (by omega), if_neg (by omega)]
    simp only [Int.toNat_natCast]
    by_cases hbig : s.buf.length < s.pos + m
    · rw [if_pos hbig]
      have hru := readUpTo_pure (s.pos + m - s.buf.length) s.src hpure
      rcases hres : readUpTo (s.pos + m - s.buf.length) s.src with ⟨o, got, src2⟩
      rw [hres] at hru
      obtain ⟨ho, hlen, hpure2, hslen⟩ := hru
      simp only at ho hlen hslen
      subst ho
      dsimp only
      have hgot : got.length = s.pos + m - s.buf.length := by omega
      rw [if_neg (by simp only [List.length_append]; omega)]
      refine ⟨rfl, rfl, hpure2, ?_, ?_⟩
      · simp only [List.length_append]
        omega
      · simp only [List.length_append]
        omega
    · rw [if_neg hbig]
      exact ⟨rfl, rfl, hpure, by dsimp only; omega, rfl⟩

/-- Claim C8: for non-negative offsets `a` and `b` with at least `a + b`
bytes available beyond the starting cursor (buffered or still in the
slice-like source), seeking relative-to-current by `a` and then by `b`
leaves the cursor at the same absolute position as a single
relative-to-current seek by `a + b` from the same starting state. -/
theorem c8_relative_seek_additivity (s : AccReader) (a b : Nat) (M : List Nat)
    (hsrc : s.src = [SrcEvent.chunk M]) (hinv : s.pos ≤ s.buf.length)
    (havail : a + b ≤ (s.buf.length - s.pos) + M.length) :
    (seek (seek s (SeekFrom.current (a : Int))).2 (SeekFrom.current (b : Int))).2.pos
      = (seek s (SeekFrom.current ((a : Int) + (b : Int)))).2.pos := by
  have hpure : IsPureSrc s.src := Or.inr ⟨M, hsrc⟩
  have hslen : srcLen s.src = M.length := by rw [hsrc]; simp [srcLen]
  have h1 := seek_current_pure s a hpure hinv (by omega)
  have h2 := seek_current_pure (seek s (SeekFrom.current (a : Int))).2 b
    h1.2.2.1 h1.2.2.2.1
    (by
      have hc1 := h1.2.2.2.2
      have hc2 := h1.2.1
      omega)
  have h3 := seek_current_pure s (a + b) hpure hinv (by omega)
  have hcast : ((a + b : Nat) : Int) = (a : Int) + (b : Int) := by push_cast; rfl
  rw [← hcast]
  rw [h2.2.1, h3.2.1, h1.2.1]
  omega

/-- Witness for C8: from a fresh adapter over `[0,1,2]`, seeking forward by
1 twice lands at the same cursor as seeking forward by 2 once. -/
theorem c8_witness :
    (seek (seek (AccReader.new (pureSrc [0, 1, 2]))
          (SeekFrom.current ((1 : Nat) : Int))).2
        (SeekFrom.current ((1 : Nat) : Int))).2.pos
      = (seek (AccReader.new (pureSrc [0, 1, 2]))
          (SeekFrom.current (((1 : Nat) : Int) + ((1 : Nat) : Int)))).2.pos :=
  c8_relative_seek_additivity (AccReader.new (pureSrc [0, 1, 2])) 1 1 [0, 1, 2]
    rfl (by decide) (by decide)

/-- Claim C10: for every negative 64-bit offset `n`, including `-2^63`, the
magnitude computed by the seek code as wrapping negation reinterpreted as
u64 equals the mathematical absolute value `|n|`; consequently a
relative-to-current seek with cursor smaller than `|n|` fails with
invalid-input leaving the state untouched, and a relative-to-end seek whose
fully drained total length is smaller than `|n|` fails with invalid-input
leaving the cursor untouched. -/
theorem c10_wrapping_negation (n : Int) (hlo : -(2 ^ 63) ≤ n) (hneg : n < 0) :
    wrapNegU64 n = (-n).toNat ∧
      (∀ s : AccReader, s.pos < (-n).toNat →
        seek s (SeekFrom.current n) = (Except.error ErrKind.invalidInput, s)) ∧
      (∀ s : AccReader, (readToEndSrc s.src).1 = none →
        (s.buf ++ (readToEndSrc s.src).2.1).length < (-n).toNat →
        (seek s (SeekFrom.fromEnd n)).1 = Except.error ErrKind.invalidInput ∧
          (seek s (SeekFrom.fromEnd n)).2.pos = s.pos) := by
  have h63 : ((2 : Int) ^ 63) = 9223372036854775808 := by norm_num
  have h64 : ((2 : Int) ^ 64) = 18446744073709551616 := by norm_num
  rw [h63] at hlo
  have hwrap : wrapNegU64 n = (-n).toNat := by
    unfold wrapNegU64
    rw [Int.emod_eq_of_lt (by omega) (by rw [h64]; omega)]
  refine ⟨hwrap, ?_, ?_⟩
  · intro s hlt
    simp only [seek]
    rw [if_neg (by omega), if_pos hneg]
    simp only [hwrap]
    rw [if_pos hlt]
  · intro s hnone hlen
    simp only [seek]
    rw [if_neg (by omega)]
    rcases hre : readToEndSrc s.src with ⟨o, got, src2⟩
    rw [hre] at hnone hlen
    simp only at hnone hlen
    subst hnone
    dsimp only
    simp only [hwrap]
    rw [if_pos hlen]
    exact ⟨rfl, rfl⟩

/-- Witness for C10 at the extreme offset `-2^63` on an empty adapter. -/
theorem c10_witness :
    wrapNegU64 (-(2 ^ 63)) = (-(-((2 : Int) ^ 63))).toNat ∧
      seek { src := [], buf := [], pos := 0, inc := 0 }
          (SeekFrom.current (-(2 ^ 63)))
        = (Except.error ErrKind.invalidInput,
            { src := [], buf := [], pos := 0, inc := 0 }) :=
  ⟨(c10_wrapping_negation (-(2 ^ 63)) (by norm_num) (by norm_num)).1,
    (c10_wrapping_negation (-(2 ^ 63)) (by norm_num) (by norm_num)).2.1
      { src := [], buf := [], pos := 0, inc := 0 } (by norm_num)⟩

end AccSpec
